import Mathlib

/-!
# A shallow embedding of the `pique` serial promise queue

The source ships a module (and a webpack-bundled copy of it) exporting a
constructor `Pique`.  An instance holds

* `_promiseFunctionArray` : an array of entries `{fn, localResolve, localReject}`,
  modelled here by `QState.pending`, a list of entry ids (head first);
* `_globalPromise`        : a chain of promises (the driver).  Every submission
  attaches one `.then` step; each step, when it fires, shifts the head entry of
  the array and invokes its `fn` with handles built by `finishPromise`, which
  settle the entry's own caller-facing promise and then resolve the driver's
  step promise.

The chain is modelled by counters: `chainLen` steps attached, `fired` steps
whose callback has run, `completed` steps whose inner promise has resolved
(i.e. whose unit has reported an outcome).  `running` is the entry that has
been invoked but has not yet reported.  `events` is the observable trace.
Machine behaviour of each submitted unit is a map `units : Nat → Outcome`
giving, for each entry id, which handle the unit calls and with which value.
-/

namespace PiqueModel

/-- The outcome a work unit reports: it calls its success handle (`resolve`)
or its failure handle (`reject`) with a value.  Values are modelled as `Nat`. -/
inductive Outcome where
  | succeed (v : Nat)
  | fail (v : Nat)
deriving DecidableEq

/-- Observable events of a queue run. -/
inductive Event where
  /-- the entry's `fn` is invoked (`nextPromise.fn(...)`) -/
  | invoke (id : Nat)
  /-- the entry's caller-facing promise settles with an outcome
  (`localResolve(value)` or `localReject(value)`) -/
  | settleLocal (id : Nat) (o : Outcome)
  /-- the driver-advance signal (`globalResolve()`) -/
  | globalResolve
deriving DecidableEq

/-- State of one `Pique` instance together with the progress of its driver
chain and the observable trace. -/
structure QState where
  /-- `_promiseFunctionArray`: pending entry ids, head of the array first -/
  pending : List Nat
  /-- number of submissions accepted (`unshiftOrPushFn` calls) -/
  submitted : Nat
  /-- number of `.then` steps attached to `_globalPromise` -/
  chainLen : Nat
  /-- number of chain steps whose callback has run (entries invoked) -/
  fired : Nat
  /-- number of chain steps whose inner promise has resolved -/
  completed : Nat
  /-- the entry invoked but not yet reported, if any -/
  running : Option Nat
  /-- a TypeError occurred (shift on an empty array gave `undefined`) -/
  crashed : Bool
  /-- the observable trace so far -/
  events : List Event
  /-- fresh id supply for new entries -/
  nextId : Nat
deriving DecidableEq

/-- The queue state produced by `new Pique()` when an implementation is
available: `_globalPromise = LocalPromise.resolve(true)` (a completed driver)
and `_promiseFunctionArray = []`. -/
def initState : QState :=
  { pending := [], submitted := 0, chainLen := 0, fired := 0, completed := 0,
    running := none, crashed := false, events := [], nextId := 0 }

/-- The module-level variable `LocalPromise`, initialised to `global.Promise`.
`none` models an absent (`undefined`) implementation; `some c` identifies the
configured constructor by a numeric tag. -/
abbrev LocalPromiseVar := Option Nat

/-- Errors the JavaScript code can throw. -/
inductive JsError where
  /-- dereferencing `undefined` (e.g. `undefined.resolve`, `new undefined(...)`,
  `undefined.fn`) -/
  | typeError
  /-- `Error('A Promise library set by .configure')` -/
  | configError
deriving DecidableEq

/-- `Pique.configure = function (promiseCtor) { LocalPromise = promiseCtor; }` :
overwrites the single module-level variable, whatever it held before. -/
def configure (promiseCtor : Nat) (_old : LocalPromiseVar) : LocalPromiseVar :=
  some promiseCtor

/-- `function Pique() { this._globalPromise = LocalPromise.resolve(true);
this._promiseFunctionArray = []; }` — with `LocalPromise` undefined the
property access `LocalPromise.resolve` throws a TypeError. -/
def PiqueNew (lp : LocalPromiseVar) : Except JsError QState :=
  match lp with
  | none => Except.error JsError.typeError
  | some _ => Except.ok initState

/-- A caller-facing promise returned by a submission: which `LocalPromise`
constructor built it, and which entry's `localResolve`/`localReject` settle it. -/
structure Future where
  impl : Nat
  entryId : Nat
deriving DecidableEq

/-- The synchronous state effect of the executor in `_changeQueue`: the new
entry `{fn, localResolve, localReject}` (given a fresh id) is put into
`_promiseFunctionArray` by `unshiftOrPushFn`, and
`self._globalPromise = self._globalPromise.then(...)` attaches one more driver
step.  Nothing is invoked and no event is emitted. -/
def submitState (s : QState) (unshiftOrPushFn : Nat → List Nat → List Nat) : QState :=
  { s with
    pending := unshiftOrPushFn s.nextId s.pending,
    submitted := s.submitted + 1,
    chainLen := s.chainLen + 1,
    nextId := s.nextId + 1 }

/-- `Pique.prototype._changeQueue` (unbundled copy): guarded by
`if (!LocalPromise) { throw new Error('A Promise library set by .configure'); }`,
then returns `new LocalPromise(executor)` where the executor inserts the entry
and extends the driver chain. -/
def _changeQueue (lp : LocalPromiseVar) (s : QState)
    (unshiftOrPushFn : Nat → List Nat → List Nat) : Except JsError (QState × Future) :=
  match lp with
  | none => Except.error JsError.configError
  | some ctor =>
      Except.ok (submitState s unshiftOrPushFn, { impl := ctor, entryId := s.nextId })

/-- `Pique.prototype._changeQueue` (webpack-bundled copy): the same body but
without the guard; with `LocalPromise` unavailable, `new LocalPromise(...)`
itself throws a TypeError. -/
def changeQueueBundled (lp : LocalPromiseVar) (s : QState)
    (unshiftOrPushFn : Nat → List Nat → List Nat) : Except JsError (QState × Future) :=
  match lp with
  | none => Except.error JsError.typeError
  | some ctor =>
      Except.ok (submitState s unshiftOrPushFn, { impl := ctor, entryId := s.nextId })

/-- `self._promiseFunctionArray.push(value)` : append at the tail. -/
def pushFn (value : Nat) (arr : List Nat) : List Nat := arr ++ [value]

/-- `self._promiseFunctionArray.unshift(value)` : insert at the head. -/
def unshiftFn (value : Nat) (arr : List Nat) : List Nat := value :: arr

/-- `Pique.prototype.push` -/
def push (lp : LocalPromiseVar) (s : QState) : Except JsError (QState × Future) :=
  _changeQueue lp s pushFn

/-- `Pique.prototype.unshift` -/
def unshift (lp : LocalPromiseVar) (s : QState) : Except JsError (QState × Future) :=
  _changeQueue lp s unshiftFn

/-- The state effect of a `push` submission (implementation available). -/
def pushQ (s : QState) : QState := submitState s pushFn

/-- The state effect of an `unshift` submission (implementation available). -/
def unshiftQ (s : QState) : QState := submitState s unshiftFn

/-- The entry's `localResolve` handle: settles the entry's own promise
as fulfilled with the given value. -/
def localResolveFn (e : Nat) : Nat → List Event :=
  fun v => [Event.settleLocal e (Outcome.succeed v)]

/-- The entry's `localReject` handle: settles the entry's own promise
as rejected with the given value. -/
def localRejectFn (e : Nat) : Nat → List Event :=
  fun v => [Event.settleLocal e (Outcome.fail v)]

/-- The driver step's `globalResolve` handle. -/
def globalResolveFn : Unit → List Event :=
  fun _ => [Event.globalResolve]

/-- `function finishPromise(localFn, globalResolveFn) { return function (value)
{ localFn(value); globalResolveFn(); }; }` -/
def finishPromise (localFn : Nat → List Event) (grFn : Unit → List Event) :
    Nat → List Event :=
  fun value => localFn value ++ grFn ()

/-- The events emitted when entry `e`'s unit reports its outcome: the unit was
invoked as `nextPromise.fn(finishPromise(localResolve, globalResolve),
finishPromise(localReject, globalResolve))` and calls exactly one of the two
handles with its value. -/
def settleEvents (units : Nat → Outcome) (e : Nat) : List Event :=
  match units e with
  | Outcome.succeed v => finishPromise (localResolveFn e) globalResolveFn v
  | Outcome.fail v => finishPromise (localRejectFn e) globalResolveFn v

/-- One driver-chain step fires: the `.then` callback attached by a past
submission runs.  It can only fire if it was attached (`fired < chainLen`) and
the previous step's inner promise has resolved (`completed = fired`).  It
shifts `_promiseFunctionArray` and invokes the entry's `fn`; if the array is
empty, `shift()` yields `undefined` and `nextPromise.fn` throws a TypeError. -/
def stepFire (s : QState) : QState :=
  if s.crashed then s
  else if s.fired < s.chainLen ∧ s.completed = s.fired then
    match s.pending with
    | [] => { s with crashed := true }
    | e :: rest =>
        { s with pending := rest, fired := s.fired + 1, running := some e,
                 events := s.events ++ [Event.invoke e] }
  else s

/-- The running unit reports its outcome: its handle (built by
`finishPromise`) settles the entry's own promise and then resolves the driver
step's promise, allowing the next step to fire. -/
def stepComplete (units : Nat → Outcome) (s : QState) : QState :=
  if s.crashed then s
  else
    match s.running with
    | some e =>
        { s with running := none, completed := s.completed + 1,
                 events := s.events ++ settleEvents units e }
    | none => s

/-- The atomic operations a run of the system is made of. -/
inductive Op where
  /-- a `push` submission -/
  | push
  /-- an `unshift` submission -/
  | unshift
  /-- a driver step's callback fires -/
  | fire
  /-- the running unit reports its outcome -/
  | complete
deriving DecidableEq

/-- Apply one operation. -/
def applyOp (units : Nat → Outcome) (s : QState) : Op → QState
  | Op.push => pushQ s
  | Op.unshift => unshiftQ s
  | Op.fire => stepFire s
  | Op.complete => stepComplete units s

/-- Run a sequence of operations. -/
def runOps (units : Nat → Outcome) (ops : List Op) (s : QState) : QState :=
  ops.foldl (applyOp units) s

/-- A state is reachable if some sequence of operations produces it from a
freshly constructed queue. -/
def Reachable (units : Nat → Outcome) (s : QState) : Prop :=
  ∃ ops : List Op, s = runOps units ops initState

/-- The ids of the entries invoked so far, in invocation order. -/
def invokedIds (evs : List Event) : List Nat :=
  evs.filterMap fun e =>
    match e with
    | Event.invoke i => some i
    | _ => none

/-- The ids whose caller-facing promise has settled so far, in order. -/
def settledIds (evs : List Event) : List Nat :=
  evs.filterMap fun e =>
    match e with
    | Event.settleLocal i _ => some i
    | _ => none

/-- The full observable block of one executed entry: its invocation followed by
the events its handles emit. -/
def entryBlock (units : Nat → Outcome) (e : Nat) : List Event :=
  Event.invoke e :: settleEvents units e

/-- The canonical trace: one full block per completed entry, in completion
order, followed by the bare invocation of the running entry if any. -/
def canonicalTrace (units : Nat → Outcome) (xs : List Nat) (r : Option Nat) : List Event :=
  (xs.flatMap (entryBlock units)) ++ (r.toList.map Event.invoke)

/-- The invariant every reachable queue state satisfies. -/
structure Inv (units : Nat → Outcome) (s : QState) : Prop where
  /-- one chain step was attached per accepted submission -/
  chain_eq : s.chainLen = s.submitted
  /-- one fresh id was consumed per accepted submission -/
  next_eq : s.nextId = s.submitted
  /-- no TypeError ever occurred -/
  no_crash : s.crashed = false
  /-- pending entries are exactly the chain steps not yet fired -/
  pending_chain : s.pending.length + s.fired = s.chainLen
  /-- fired steps are the completed ones plus the running one if any -/
  fired_eq : s.fired = s.completed + s.running.toList.length
  /-- one caller-facing promise settled per completed step -/
  settled_len : (settledIds s.events).length = s.completed
  /-- ids in the system are below the fresh-id supply -/
  ids_lt : ∀ i ∈ settledIds s.events ++ s.running.toList ++ s.pending, i < s.nextId
  /-- no id occurs twice in the system -/
  ids_nodup : (settledIds s.events ++ s.running.toList ++ s.pending).Nodup
  /-- the trace is the canonical trace of the settled entries plus the
  invocation of the running entry -/
  trace_eq : s.events = canonicalTrace units (settledIds s.events) s.running

/-- The operations that let the driver run to completion when `n` entries are
pending: the running unit (if any) reports, then each remaining chain step
fires and its unit reports. -/
def drainOps : Nat → List Op
  | 0 => [Op.complete]
  | n + 1 => Op.complete :: Op.fire :: drainOps n

/-- Let the driver run to completion from a state (all units report). -/
def drain (units : Nat → Outcome) (s : QState) : QState :=
  runOps units (drainOps s.pending.length) s

/-- The outcome-independent part of a state: everything except the settle
payloads of the trace.  Used to show a unit's success or failure does not
influence scheduling. -/
structure Mask where
  pending : List Nat
  submitted : Nat
  chainLen : Nat
  fired : Nat
  completed : Nat
  running : Option Nat
  crashed : Bool
  invoked : List Nat
  nextId : Nat
deriving DecidableEq

/-- Project a state to its outcome-independent part. -/
def mask (s : QState) : Mask :=
  { pending := s.pending, submitted := s.submitted, chainLen := s.chainLen,
    fired := s.fired, completed := s.completed, running := s.running,
    crashed := s.crashed, invoked := invokedIds s.events, nextId := s.nextId }

/-- The additional invariant of tail-only runs: entry ids are consumed in
numeric (submission) order everywhere. -/
structure TInv (units : Nat → Outcome) (s : QState) : Prop where
  inv : Inv units s
  settled_range : settledIds s.events = List.range s.completed
  running_range : s.running.toList = List.range' s.completed (s.fired - s.completed)
  pending_range : s.pending = List.range' s.fired (s.nextId - s.fired)

/-- Entry id of the blocker unit in the mixed scenario. -/
def blockerId : Nat := 0

/-- Entry id of unit A (tail-submitted first) in the mixed scenario. -/
def idA : Nat := 1

/-- Entry id of unit B (head-submitted second) in the mixed scenario. -/
def idB : Nat := 2

/-- Entry id of unit C (tail-submitted third) in the mixed scenario. -/
def idC : Nat := 3

/-- Entry id of unit D (head-submitted fourth) in the mixed scenario. -/
def idD : Nat := 4

/-- The operation sequence of the mixed scenario: a blocker unit is submitted
and has not yet completed (it is at the head of the queue), then A is
tail-submitted, B head-submitted, C tail-submitted and D head-submitted — all
before any unit has run — and then the driver runs all five steps, each unit
reporting its outcome. -/
def mixedOps : List Op :=
  [Op.push, Op.push, Op.unshift, Op.push, Op.unshift,
   Op.fire, Op.complete, Op.fire, Op.complete, Op.fire, Op.complete,
   Op.fire, Op.complete, Op.fire, Op.complete]

/-- A concrete outcome assignment where every unit reports failure with its
own entry id as value. -/
def failUnits : Nat → Outcome := fun v => Outcome.fail v

/-- A concrete outcome assignment where every unit reports success with its
own entry id as value. -/
def succUnits : Nat → Outcome := fun v => Outcome.succeed v

/-- A concrete tail-only run: two `push` submissions, then both units run. -/
def tailOnlyOps : List Op :=
  [Op.push, Op.push, Op.fire, Op.complete, Op.fire, Op.complete]

/-- A concrete reachable base state with one pending entry. -/
def c3Base : QState := runOps succUnits [Op.push] initState

/-- A concrete reachable state with a running unit and a pending entry. -/
def c9State : QState := runOps failUnits [Op.push, Op.unshift, Op.fire] initState

theorem settleEvents_eq (units : Nat → Outcome) (e : Nat) :
    settleEvents units e = [Event.settleLocal e (units e), Event.globalResolve] := by
  unfold settleEvents finishPromise localResolveFn localRejectFn globalResolveFn
  cases h : units e <;> simp [h]

theorem invokedIds_append (a b : List Event) :
    invokedIds (a ++ b) = invokedIds a ++ invokedIds b := by
  simp [invokedIds]

theorem settledIds_append (a b : List Event) :
    settledIds (a ++ b) = settledIds a ++ settledIds b := by
  simp [settledIds]

theorem invokedIds_settleEvents (units : Nat → Outcome) (e : Nat) :
    invokedIds (settleEvents units e) = [] := by
  simp [settleEvents_eq, invokedIds]

theorem settledIds_settleEvents (units : Nat → Outcome) (e : Nat) :
    settledIds (settleEvents units e) = [e] := by
  simp [settleEvents_eq, settledIds]

theorem invokedIds_entryBlock (units : Nat → Outcome) (e : Nat) :
    invokedIds (entryBlock units e) = [e] := by
  simp [entryBlock, settleEvents_eq, invokedIds]

theorem settledIds_entryBlock (units : Nat → Outcome) (e : Nat) :
    settledIds (entryBlock units e) = [e] := by
  simp [entryBlock, settleEvents_eq, settledIds]

theorem invokedIds_flatMap (units : Nat → Outcome) (xs : List Nat) :
    invokedIds (xs.flatMap (entryBlock units)) = xs := by
  induction xs with
  | nil => rfl
  | cons a t ih =>
      simp only [List.flatMap_cons, invokedIds_append, invokedIds_entryBlock, ih]
      rfl

theorem settledIds_flatMap (units : Nat → Outcome) (xs : List Nat) :
    settledIds (xs.flatMap (entryBlock units)) = xs := by
  induction xs with
  | nil => rfl
  | cons a t ih =>
      simp only [List.flatMap_cons, settledIds_append, settledIds_entryBlock, ih]
      rfl

theorem invokedIds_map_invoke (l : List Nat) :
    invokedIds (l.map Event.invoke) = l := by
  induction l with
  | nil => rfl
  | cons a t ih =>
      show a :: invokedIds (t.map Event.invoke) = a :: t
      rw [ih]

theorem settledIds_map_invoke (l : List Nat) :
    settledIds (l.map Event.invoke) = [] := by
  induction l with
  | nil => rfl
  | cons a t ih =>
      show settledIds (t.map Event.invoke) = []
      exact ih

theorem invokedIds_canonicalTrace (units : Nat → Outcome) (xs : List Nat) (r : Option Nat) :
    invokedIds (canonicalTrace units xs r) = xs ++ r.toList := by
  simp [canonicalTrace, invokedIds_append, invokedIds_flatMap, invokedIds_map_invoke]

theorem settledIds_canonicalTrace (units : Nat → Outcome) (xs : List Nat) (r : Option Nat) :
    settledIds (canonicalTrace units xs r) = xs := by
  simp [canonicalTrace, settledIds_append, settledIds_flatMap, settledIds_map_invoke]

theorem inv_initState (units : Nat → Outcome) : Inv units initState := by
  constructor <;> simp [initState, canonicalTrace, settledIds]

theorem invoked_eq_of_inv {units : Nat → Outcome} {s : QState} (h : Inv units s) :
    invokedIds s.events = settledIds s.events ++ s.running.toList := by
  conv_lhs => rw [h.trace_eq]
  exact invokedIds_canonicalTrace units (settledIds s.events) s.running

theorem settledIds_single_invoke (e : Nat) : settledIds [Event.invoke e] = [] := rfl

theorem invokedIds_single_invoke (e : Nat) : invokedIds [Event.invoke e] = [e] := rfl

theorem inv_submitState (units : Nat → Outcome) (s : QState)
    (f : Nat → List Nat → List Nat) (hf : ∀ n l, (f n l).Perm (n :: l))
    (h : Inv units s) : Inv units (submitState s f) := by
  have hlen : (f s.nextId s.pending).length = s.pending.length + 1 := by
    rw [(hf s.nextId s.pending).length_eq]; rfl
  have hperm : (settledIds s.events ++ (s.running.toList ++ f s.nextId s.pending)).Perm
      (settledIds s.events ++ (s.running.toList ++ (s.nextId :: s.pending))) :=
    List.Perm.append_left _ (List.Perm.append_left _ (hf s.nextId s.pending))
  constructor
  · show s.chainLen + 1 = s.submitted + 1
    rw [h.chain_eq]
  · show s.nextId + 1 = s.submitted + 1
    rw [h.next_eq]
  · exact h.no_crash
  · show (f s.nextId s.pending).length + s.fired = s.chainLen + 1
    rw [hlen]; have := h.pending_chain; omega
  · exact h.fired_eq
  · exact h.settled_len
  · intro i hi
    show i < s.nextId + 1
    rw [List.append_assoc] at hi
    have hi' : i ∈ settledIds s.events ++ (s.running.toList ++ (s.nextId :: s.pending)) :=
      hperm.mem_iff.mp hi
    rcases List.mem_append.mp hi' with h1 | h2
    · have := h.ids_lt i (by simp [h1]); omega
    · rcases List.mem_append.mp h2 with h3 | h4
      · have := h.ids_lt i (by simp [h3]); omega
      · rcases List.mem_cons.mp h4 with rfl | h5
        · omega
        · have := h.ids_lt i (by simp [h5]); omega
  · show (settledIds s.events ++ s.running.toList ++ f s.nextId s.pending).Nodup
    rw [List.append_assoc]
    apply hperm.nodup_iff.mpr
    rw [← List.append_assoc]
    refine List.nodup_middle.mpr (List.nodup_cons.mpr ⟨?_, ?_⟩)
    · intro hmem
      have := h.ids_lt s.nextId hmem
      omega
    · exact h.ids_nodup
  · show s.events = canonicalTrace units (settledIds s.events) s.running
    exact h.trace_eq

theorem inv_pushQ (units : Nat → Outcome) (s : QState) (h : Inv units s) :
    Inv units (pushQ s) :=
  inv_submitState units s pushFn (fun n l => List.perm_append_singleton n l) h

theorem inv_unshiftQ (units : Nat → Outcome) (s : QState) (h : Inv units s) :
    Inv units (unshiftQ s) :=
  inv_submitState units s unshiftFn (fun _ _ => List.Perm.refl _) h

theorem stepFire_eq_of (s : QState) (hcr : s.crashed = false)
    (hg1 : s.fired < s.chainLen) (hg2 : s.completed = s.fired) (e : Nat) (rest : List Nat)
    (hp : s.pending = e :: rest) :
    stepFire s =
      { s with pending := rest, fired := s.fired + 1, running := some e,
               events := s.events ++ [Event.invoke e] } := by
  unfold stepFire
  rw [hcr, hp]
  simp [hg1, hg2]

theorem stepFire_no_op (s : QState) (hcr : s.crashed = false)
    (hg : ¬(s.fired < s.chainLen ∧ s.completed = s.fired)) : stepFire s = s := by
  unfold stepFire
  rw [hcr]
  simp [hg]

theorem stepComplete_none (units : Nat → Outcome) (s : QState) (hcr : s.crashed = false)
    (hr : s.running = none) : stepComplete units s = s := by
  unfold stepComplete
  rw [hcr, hr]
  simp

theorem stepComplete_some (units : Nat → Outcome) (s : QState) (e : Nat)
    (hcr : s.crashed = false) (hr : s.running = some e) :
    stepComplete units s =
      { s with running := none, completed := s.completed + 1,
               events := s.events ++ settleEvents units e } := by
  unfold stepComplete
  rw [hcr, hr]
  simp

theorem canonicalTrace_snoc (units : Nat → Outcome) (xs : List Nat) (e : Nat) :
    canonicalTrace units (xs ++ [e]) none =
      canonicalTrace units xs (some e) ++ settleEvents units e := by
  simp [canonicalTrace, entryBlock, List.append_assoc]

theorem inv_stepFire (units : Nat → Outcome) (s : QState) (h : Inv units s) :
    Inv units (stepFire s) := by
  by_cases hg : s.fired < s.chainLen ∧ s.completed = s.fired
  · have hrun : s.running = none := by
      rcases hro : s.running with _ | e
      · rfl
      · exfalso
        have hfe := h.fired_eq
        rw [hro] at hfe
        simp [Option.toList] at hfe
        omega
    rcases hpd : s.pending with _ | ⟨e, rest⟩
    · exfalso
      have hpc := h.pending_chain
      rw [hpd] at hpc
      simp at hpc
      omega
    · rw [stepFire_eq_of s h.no_crash hg.1 hg.2 e rest hpd]
      have hsame : settledIds (s.events ++ [Event.invoke e]) = settledIds s.events := by
        rw [settledIds_append, settledIds_single_invoke, List.append_nil]
      have hlist : settledIds s.events ++ [e] ++ rest =
          settledIds s.events ++ s.running.toList ++ s.pending := by
        rw [hrun, hpd]
        simp
      constructor
      · exact h.chain_eq
      · exact h.next_eq
      · exact h.no_crash
      · show rest.length + (s.fired + 1) = s.chainLen
        have hpc := h.pending_chain
        rw [hpd] at hpc
        simp at hpc
        omega
      · show s.fired + 1 = s.completed + (some e).toList.length
        simp [Option.toList]
        omega
      · show (settledIds (s.events ++ [Event.invoke e])).length = s.completed
        rw [hsame]
        exact h.settled_len
      · intro i hi
        apply h.ids_lt
        rw [← hlist]
        simpa [hsame] using hi
      · show (settledIds (s.events ++ [Event.invoke e]) ++ (some e).toList ++ rest).Nodup
        rw [hsame]
        show (settledIds s.events ++ [e] ++ rest).Nodup
        rw [hlist]
        exact h.ids_nodup
      · show s.events ++ [Event.invoke e] =
            canonicalTrace units (settledIds (s.events ++ [Event.invoke e])) (some e)
        rw [hsame]
        conv_lhs => rw [h.trace_eq]
        rw [hrun]
        simp [canonicalTrace]
  · rw [stepFire_no_op s h.no_crash hg]
    exact h

theorem inv_stepComplete (units : Nat → Outcome) (s : QState) (h : Inv units s) :
    Inv units (stepComplete units s) := by
  rcases hro : s.running with _ | e
  · rw [stepComplete_none units s h.no_crash hro]
    exact h
  · rw [stepComplete_some units s e h.no_crash hro]
    have hsd : settledIds (s.events ++ settleEvents units e) =
        settledIds s.events ++ [e] := by
      rw [settledIds_append, settledIds_settleEvents]
    have hfe := h.fired_eq
    rw [hro] at hfe
    simp [Option.toList] at hfe
    have hgoal : settledIds (s.events ++ settleEvents units e) ++
        (none : Option Nat).toList ++ s.pending =
        settledIds s.events ++ s.running.toList ++ s.pending := by
      rw [hsd, hro]
      simp
    constructor
    · exact h.chain_eq
    · exact h.next_eq
    · exact h.no_crash
    · exact h.pending_chain
    · show s.fired = s.completed + 1 + (none : Option Nat).toList.length
      simp [Option.toList]
      omega
    · show (settledIds (s.events ++ settleEvents units e)).length = s.completed + 1
      rw [hsd]
      simp [h.settled_len]
    · intro i hi
      rw [hgoal] at hi
      exact h.ids_lt i hi
    · show (settledIds (s.events ++ settleEvents units e) ++
          (none : Option Nat).toList ++ s.pending).Nodup
      rw [hgoal]
      exact h.ids_nodup
    · show s.events ++ settleEvents units e =
          canonicalTrace units (settledIds (s.events ++ settleEvents units e)) none
      rw [hsd, canonicalTrace_snoc]
      conv_lhs => rw [h.trace_eq]
      rw [hro]

theorem inv_applyOp (units : Nat → Outcome) (s : QState) (op : Op) (h : Inv units s) :
    Inv units (applyOp units s op) := by
  cases op
  · exact inv_pushQ units s h
  · exact inv_unshiftQ units s h
  · exact inv_stepFire units s h
  · exact inv_stepComplete units s h

theorem inv_runOps (units : Nat → Outcome) (ops : List Op) :
    ∀ s : QState, Inv units s → Inv units (runOps units ops s) := by
  induction ops with
  | nil => intro s h; exact h
  | cons op t ih =>
      intro s h
      exact ih (applyOp units s op) (inv_applyOp units s op h)

theorem inv_of_reachable {units : Nat → Outcome} {s : QState} (h : Reachable units s) :
    Inv units s := by
  obtain ⟨ops, rfl⟩ := h
  exact inv_runOps units ops initState (inv_initState units)

theorem runOps_append (units : Nat → Outcome) (a b : List Op) (s : QState) :
    runOps units (a ++ b) s = runOps units b (runOps units a s) :=
  List.foldl_append _ _ a b

theorem reachable_runOps (units : Nat → Outcome) (ops : List Op) {s : QState}
    (h : Reachable units s) : Reachable units (runOps units ops s) := by
  obtain ⟨ops0, rfl⟩ := h
  exact ⟨ops0 ++ ops, (runOps_append units ops0 ops initState).symm⟩

theorem reachable_initState (units : Nat → Outcome) : Reachable units initState :=
  ⟨[], rfl⟩

theorem stepComplete_fields (units : Nat → Outcome) (s : QState) (h : Inv units s) :
    Inv units (stepComplete units s) ∧
    (stepComplete units s).pending = s.pending ∧
    (stepComplete units s).running = none ∧
    (stepComplete units s).chainLen = s.chainLen ∧
    (stepComplete units s).fired = s.fired ∧
    (stepComplete units s).completed = s.fired ∧
    (stepComplete units s).nextId = s.nextId ∧
    (stepComplete units s).submitted = s.submitted ∧
    (stepComplete units s).events =
      s.events ++ s.running.toList.flatMap (settleEvents units) := by
  have hinv := inv_stepComplete units s h
  rcases hro : s.running with _ | e
  · rw [stepComplete_none units s h.no_crash hro] at hinv ⊢
    have hfe := h.fired_eq
    rw [hro] at hfe
    simp [Option.toList] at hfe
    refine ⟨hinv, rfl, hro, rfl, rfl, hfe.symm, rfl, rfl, by simp⟩
  · rw [stepComplete_some units s e h.no_crash hro] at hinv ⊢
    have hfe := h.fired_eq
    rw [hro] at hfe
    simp [Option.toList] at hfe
    exact ⟨hinv, rfl, rfl, rfl, rfl, by simp; omega, rfl, rfl, by simp⟩

theorem drain_go (units : Nat → Outcome) :
    ∀ (n : Nat) (s : QState), Inv units s → s.pending.length = n →
      Inv units (runOps units (drainOps n) s) ∧
      (runOps units (drainOps n) s).pending = [] ∧
      (runOps units (drainOps n) s).running = none ∧
      (runOps units (drainOps n) s).nextId = s.nextId ∧
      (runOps units (drainOps n) s).submitted = s.submitted ∧
      (runOps units (drainOps n) s).events =
        s.events ++ s.running.toList.flatMap (settleEvents units) ++
          s.pending.flatMap (entryBlock units) := by
  intro n
  induction n with
  | zero =>
      intro s h hlen
      have hpe : s.pending = [] := List.length_eq_zero.mp hlen
      obtain ⟨hinv1, hp1, hr1, hcl1, hf1, hco1, hnx1, hsb1, hev1⟩ :=
        stepComplete_fields units s h
      have hre : runOps units (drainOps 0) s = stepComplete units s := rfl
      rw [hre]
      refine ⟨hinv1, ?_, hr1, hnx1, hsb1, ?_⟩
      · rw [hp1, hpe]
      · rw [hev1, hpe]
        simp
  | succ n ih =>
      intro s h hlen
      rcases hpd : s.pending with _ | ⟨e, rest⟩
      · rw [hpd] at hlen; simp at hlen
      have hrest : rest.length = n := by rw [hpd] at hlen; simpa using hlen
      obtain ⟨hinv1, hp1, hr1, hcl1, hf1, hco1, hnx1, hsb1, hev1⟩ :=
        stepComplete_fields units s h
      have hfire1 : (stepComplete units s).fired < (stepComplete units s).chainLen := by
        have hpc := hinv1.pending_chain
        rw [hp1, hpd, hcl1, hf1] at hpc
        rw [hcl1, hf1]
        simp at hpc
        omega
      have hfire2 : (stepComplete units s).completed = (stepComplete units s).fired := by
        rw [hco1, hf1]
      have hs1p : (stepComplete units s).pending = e :: rest := by rw [hp1, hpd]
      have hsf := stepFire_eq_of (stepComplete units s) hinv1.no_crash hfire1 hfire2 e rest hs1p
      have hinv2 : Inv units (stepFire (stepComplete units s)) :=
        inv_stepFire units (stepComplete units s) hinv1
      have hrun : runOps units (drainOps (n + 1)) s =
          runOps units (drainOps n) (stepFire (stepComplete units s)) := rfl
      obtain ⟨hinv3, hp3, hr3, hnx3, hsb3, hev3⟩ :=
        ih (stepFire (stepComplete units s)) hinv2 (by rw [hsf]; exact hrest)
      rw [hrun]
      refine ⟨hinv3, hp3, hr3, ?_, ?_, ?_⟩
      · rw [hnx3, hsf]
        exact hnx1
      · rw [hsb3, hsf]
        exact hsb1
      · rw [hev3, hsf]
        show (stepComplete units s).events ++ [Event.invoke e] ++
            (some e).toList.flatMap (settleEvents units) ++
            rest.flatMap (entryBlock units) =
            s.events ++ s.running.toList.flatMap (settleEvents units) ++
              (e :: rest).flatMap (entryBlock units)
        rw [hev1]
        simp [entryBlock, Option.toList, List.append_assoc]

theorem invokedIds_runningFlat (units : Nat → Outcome) (r : Option Nat) :
    invokedIds (r.toList.flatMap (settleEvents units)) = [] := by
  cases r
  · rfl
  · simp only [Option.toList, List.flatMap_cons, List.flatMap_nil, List.append_nil,
      invokedIds_settleEvents]

theorem settledIds_runningFlat (units : Nat → Outcome) (r : Option Nat) :
    settledIds (r.toList.flatMap (settleEvents units)) = r.toList := by
  cases r
  · rfl
  · simp only [Option.toList, List.flatMap_cons, List.flatMap_nil, List.append_nil,
      settledIds_settleEvents]

theorem drain_spec (units : Nat → Outcome) (s : QState) (h : Inv units s) :
    Inv units (drain units s) ∧
    (drain units s).pending = [] ∧
    (drain units s).running = none ∧
    (drain units s).nextId = s.nextId ∧
    (drain units s).submitted = s.submitted ∧
    invokedIds (drain units s).events = invokedIds s.events ++ s.pending ∧
    settledIds (drain units s).events =
      settledIds s.events ++ s.running.toList ++ s.pending := by
  obtain ⟨hinv, hp, hr, hnx, hsb, hev⟩ := drain_go units s.pending.length s h rfl
  have hd : drain units s = runOps units (drainOps s.pending.length) s := rfl
  rw [hd]
  refine ⟨hinv, hp, hr, hnx, hsb, ?_, ?_⟩
  · rw [hev, invokedIds_append, invokedIds_append, invokedIds_flatMap,
        invokedIds_runningFlat, List.append_nil]
  · rw [hev, settledIds_append, settledIds_append, settledIds_flatMap,
        settledIds_runningFlat]

theorem reachable_drain (units : Nat → Outcome) {s : QState} (h : Reachable units s) :
    Reachable units (drain units s) :=
  reachable_runOps units (drainOps s.pending.length) h

theorem invoked_nodup_of_inv {units : Nat → Outcome} {s : QState} (h : Inv units s) :
    (invokedIds s.events).Nodup := by
  rw [invoked_eq_of_inv h]
  exact (h.ids_nodup).of_append_left

theorem ids_length_of_inv {units : Nat → Outcome} {s : QState} (h : Inv units s) :
    (settledIds s.events ++ s.running.toList ++ s.pending).length = s.submitted := by
  have h1 := h.settled_len
  have h2 := h.fired_eq
  have h3 := h.pending_chain
  have h4 := h.chain_eq
  simp only [List.length_append]
  omega

theorem ids_perm_range_of_inv {units : Nat → Outcome} {s : QState} (h : Inv units s) :
    (settledIds s.events ++ s.running.toList ++ s.pending).Perm
      (List.range s.submitted) := by
  have hsub : (settledIds s.events ++ s.running.toList ++ s.pending) ⊆
      List.range s.submitted := by
    intro i hi
    have := h.ids_lt i hi
    rw [h.next_eq] at this
    exact List.mem_range.mpr this
  have hsp := (h.ids_nodup).subperm hsub
  refine hsp.perm_of_length_le ?_
  rw [List.length_range, ids_length_of_inv h]

theorem unshiftQ_iter (n : Nat) : ∀ s : QState,
    (unshiftQ^[n] s).pending = (List.range' s.nextId n).reverse ++ s.pending ∧
    (unshiftQ^[n] s).nextId = s.nextId + n ∧
    (unshiftQ^[n] s).events = s.events ∧
    (unshiftQ^[n] s).running = s.running := by
  induction n with
  | zero => intro s; simp
  | succ n ih =>
      intro s
      rw [Function.iterate_succ_apply]
      obtain ⟨hp, hnx, hev, hr⟩ := ih (unshiftQ s)
      have h1 : (unshiftQ s).pending = s.nextId :: s.pending := rfl
      have h2 : (unshiftQ s).nextId = s.nextId + 1 := rfl
      refine ⟨?_, ?_, hev, hr⟩
      · rw [hp, h1, h2, List.range'_succ, List.reverse_cons, List.append_assoc]
        rfl
      · rw [hnx, h2]
        omega

theorem inv_unshiftQ_iter (units : Nat → Outcome) (n : Nat) :
    ∀ s : QState, Inv units s → Inv units (unshiftQ^[n] s) := by
  induction n with
  | zero => intro s h; exact h
  | succ n ih =>
      intro s h
      rw [Function.iterate_succ_apply]
      exact ih (unshiftQ s) (inv_unshiftQ units s h)

theorem mask_applyOp (u1 u2 : Nat → Outcome) (s1 s2 : QState) (op : Op)
    (h : mask s1 = mask s2) : mask (applyOp u1 s1 op) = mask (applyOp u2 s2 op) := by
  have hp : s1.pending = s2.pending := congrArg Mask.pending h
  have hsb : s1.submitted = s2.submitted := congrArg Mask.submitted h
  have hcl : s1.chainLen = s2.chainLen := congrArg Mask.chainLen h
  have hf : s1.fired = s2.fired := congrArg Mask.fired h
  have hco : s1.completed = s2.completed := congrArg Mask.completed h
  have hr : s1.running = s2.running := congrArg Mask.running h
  have hcr : s1.crashed = s2.crashed := congrArg Mask.crashed h
  have hiv : invokedIds s1.events = invokedIds s2.events := congrArg Mask.invoked h
  have hnx : s1.nextId = s2.nextId := congrArg Mask.nextId h
  cases op
  · show mask (pushQ s1) = mask (pushQ s2)
    simp [mask, pushQ, submitState, pushFn, hp, hsb, hcl, hf, hco, hr, hcr, hiv, hnx]
  · show mask (unshiftQ s1) = mask (unshiftQ s2)
    simp [mask, unshiftQ, submitState, unshiftFn, hp, hsb, hcl, hf, hco, hr, hcr, hiv, hnx]
  · show mask (stepFire s1) = mask (stepFire s2)
    unfold stepFire
    rw [← hcr, ← hcl, ← hf, ← hco, ← hp]
    by_cases hc : s1.crashed
    · rw [if_pos hc, if_pos hc]
      simp [mask, hp, hsb, hcl, hf, hco, hr, hcr, hiv, hnx]
    · rw [if_neg hc, if_neg hc]
      by_cases hg : s1.fired < s1.chainLen ∧ s1.completed = s1.fired
      · rw [if_pos hg, if_pos hg]
        rcases hpd : s1.pending with _ | ⟨e, rest⟩
        · simp [mask, hp, hsb, hcl, hf, hco, hr, hcr, hiv, hnx]
        · simp [mask, hp, hsb, hcl, hf, hco, hr, hcr, hiv, hnx,
            invokedIds_append, invokedIds_single_invoke]
      · rw [if_neg hg, if_neg hg]
        simp [mask, hp, hsb, hcl, hf, hco, hr, hcr, hiv, hnx]
  · show mask (stepComplete u1 s1) = mask (stepComplete u2 s2)
    unfold stepComplete
    rw [← hcr, ← hr]
    by_cases hc : s1.crashed
    · rw [if_pos hc, if_pos hc]
      simp [mask, hp, hsb, hcl, hf, hco, hr, hcr, hiv, hnx]
    · rw [if_neg hc, if_neg hc]
      rcases hro : s1.running with _ | e
      · simp [mask, hp, hsb, hcl, hf, hco, hr, hcr, hiv, hnx]
      · simp [mask, hp, hsb, hcl, hf, hco, hr, hcr, hiv, hnx,
          invokedIds_append, invokedIds_settleEvents]

theorem mask_runOps (u1 u2 : Nat → Outcome) (ops : List Op) :
    ∀ s1 s2 : QState, mask s1 = mask s2 →
      mask (runOps u1 ops s1) = mask (runOps u2 ops s2) := by
  induction ops with
  | nil => intro s1 s2 h; exact h
  | cons op t ih =>
      intro s1 s2 h
      exact ih (applyOp u1 s1 op) (applyOp u2 s2 op) (mask_applyOp u1 u2 s1 s2 op h)

theorem invoke_mem_entryBlock (units : Nat → Outcome) (e : Nat) :
    Event.invoke e ∈ entryBlock units e := by
  simp [entryBlock]

theorem settle_sublist_suffix (units : Nat → Outcome) (p q rl : List Nat) (a b : Nat)
    (hb : Event.invoke b ∈ q.flatMap (entryBlock units) ++ rl.map Event.invoke) :
    (settleEvents units a ++ [Event.invoke b]).Sublist
      ((p ++ a :: q).flatMap (entryBlock units) ++ rl.map Event.invoke) := by
  rw [List.flatMap_append, List.flatMap_cons, List.append_assoc, List.append_assoc]
  have h1 : List.Sublist (settleEvents units a) (entryBlock units a) := by
    simp [entryBlock]
  have h2 : List.Sublist [Event.invoke b]
      (q.flatMap (entryBlock units) ++ rl.map Event.invoke) :=
    List.singleton_sublist.mpr hb
  have h3 := h1.append h2
  simpa using (List.nil_sublist (p.flatMap (entryBlock units))).append h3

theorem gen_settle_before_invoke (units : Nat → Outcome) (xs rl l1 l2 : List Nat)
    (a b : Nat) (hrl : rl.length ≤ 1) (ha : a ∈ l1)
    (h : l1 ++ b :: l2 = xs ++ rl) :
    (settleEvents units a ++ [Event.invoke b]).Sublist
      (xs.flatMap (entryBlock units) ++ rl.map Event.invoke) := by
  rcases List.append_eq_append_iff.mp h with ⟨m, hm1, hm2⟩ | ⟨m, hm1, hm2⟩
  · rcases m with _ | ⟨x, m'⟩
    · -- the split point is exactly between l1 and b :: l2
      have hrlb : rl = b :: l2 := (by simpa using hm2 : b :: l2 = rl).symm
      have hl2 : l2 = [] := by
        rw [hrlb] at hrl
        simp at hrl
        exact hrl
      have hxs : xs = l1 := (by simpa using hm1 : xs = l1)
      obtain ⟨p, q, hpq⟩ := List.append_of_mem ha
      rw [hxs, hpq]
      apply settle_sublist_suffix
      apply List.mem_append_right
      rw [hrlb, hl2]
      simp
    · -- b still lies inside xs
      have hbx : b = x ∧ l2 = m' ++ rl := by
        have : b :: l2 = x :: (m' ++ rl) := by simpa using hm2
        exact ⟨by injection this, by injection this⟩
      rw [← hbx.1] at hm1
      obtain ⟨p, q, hpq⟩ := List.append_of_mem ha
      have hxs : xs = p ++ a :: (q ++ b :: m') := by
        rw [hm1, hpq]
        simp
      rw [hxs]
      apply settle_sublist_suffix
      apply List.mem_append_left
      exact List.mem_flatMap.mpr ⟨b, by simp, invoke_mem_entryBlock units b⟩
  · -- the split point lies inside l1: forces rl = [b] and l1 = xs
    have hlen := congrArg List.length hm2
    simp at hlen
    have hmn : m = [] := List.eq_nil_of_length_eq_zero (by omega)
    have hl2 : l2 = [] := List.eq_nil_of_length_eq_zero (by omega)
    subst hmn
    have hxs : xs = l1 := (by simpa using hm1 : l1 = xs).symm
    obtain ⟨p, q, hpq⟩ := List.append_of_mem ha
    rw [hxs, hpq]
    apply settle_sublist_suffix
    apply List.mem_append_right
    rw [hm2]
    simp [hl2]

theorem settle_before_invoke {units : Nat → Outcome} {s : QState} (h : Inv units s)
    {l1 l2 : List Nat} {a b : Nat} (ha : a ∈ l1)
    (hs : invokedIds s.events = l1 ++ b :: l2) :
    (settleEvents units a ++ [Event.invoke b]).Sublist s.events := by
  have hrl : s.running.toList.length ≤ 1 := by cases s.running <;> simp [Option.toList]
  have hinv := invoked_eq_of_inv h
  rw [hs] at hinv
  rw [h.trace_eq]
  exact gen_settle_before_invoke units (settledIds s.events) s.running.toList l1 l2 a b
    hrl ha hinv

theorem tinv_initState (units : Nat → Outcome) : TInv units initState := by
  refine ⟨inv_initState units, ?_, ?_, ?_⟩ <;> simp [initState, settledIds, Option.toList]

theorem tinv_applyOp (units : Nat → Outcome) (s : QState) (op : Op)
    (hop : op ≠ Op.unshift) (h : TInv units s) : TInv units (applyOp units s op) := by
  obtain ⟨hinv, hsr, hrr, hpr⟩ := h
  have hfl : s.fired ≤ s.nextId := by
    have h1 := hinv.pending_chain
    have h2 := hinv.chain_eq
    have h3 := hinv.next_eq
    omega
  cases op
  · -- push
    refine ⟨inv_pushQ units s hinv, hsr, hrr, ?_⟩
    show s.pending ++ [s.nextId] = List.range' s.fired (s.nextId + 1 - s.fired)
    rw [hpr, show s.nextId + 1 - s.fired = (s.nextId - s.fired) + 1 by omega,
        List.range'_1_concat, show s.fired + (s.nextId - s.fired) = s.nextId by omega]
  · exact absurd rfl hop
  · -- fire
    have hif := inv_stepFire units s hinv
    by_cases hg : s.fired < s.chainLen ∧ s.completed = s.fired
    · have hrun : s.running = none := by
        rcases hro : s.running with _ | e
        · rfl
        · exfalso
          have hfe := hinv.fired_eq
          rw [hro] at hfe
          simp [Option.toList] at hfe
          omega
      have hlen : s.pending.length + s.fired = s.chainLen := hinv.pending_chain
      have hne : s.nextId - s.fired ≠ 0 := by
        intro hz
        rw [hpr, hz] at hlen
        simp at hlen
        have := hinv.chain_eq
        have := hinv.next_eq
        omega
      obtain ⟨k, hk⟩ : ∃ k, s.nextId - s.fired = k + 1 :=
        ⟨s.nextId - s.fired - 1, by omega⟩
      have hpd : s.pending = s.fired :: List.range' (s.fired + 1) k := by
        rw [hpr, hk, List.range'_succ]
      rw [show applyOp units s Op.fire = stepFire s from rfl,
          stepFire_eq_of s hinv.no_crash hg.1 hg.2 s.fired (List.range' (s.fired + 1) k) hpd]
      rw [stepFire_eq_of s hinv.no_crash hg.1 hg.2 s.fired (List.range' (s.fired + 1) k) hpd]
        at hif
      refine ⟨hif, ?_, ?_, ?_⟩
      · show settledIds (s.events ++ [Event.invoke s.fired]) = List.range s.completed
        rw [settledIds_append, settledIds_single_invoke, List.append_nil, hsr]
      · show (some s.fired).toList = List.range' s.completed (s.fired + 1 - s.completed)
        rw [hg.2, show s.fired + 1 - s.fired = 1 from by omega]
        simp [Option.toList, List.range'_succ]
      · show List.range' (s.fired + 1) k = List.range' (s.fired + 1) (s.nextId - (s.fired + 1))
        congr 1
        omega
    · rw [show applyOp units s Op.fire = stepFire s from rfl, stepFire_no_op s hinv.no_crash hg]
      exact ⟨hinv, hsr, hrr, hpr⟩
  · -- complete
    have hic := inv_stepComplete units s hinv
    rcases hro : s.running with _ | e
    · rw [show applyOp units s Op.complete = stepComplete units s from rfl,
          stepComplete_none units s hinv.no_crash hro]
      exact ⟨hinv, hsr, hrr, hpr⟩
    · have hfe := hinv.fired_eq
      rw [hro] at hfe
      simp [Option.toList] at hfe
      have he : e = s.completed := by
        rw [hro] at hrr
        rw [show s.fired - s.completed = 1 from by omega, List.range'_succ] at hrr
        simpa [Option.toList] using hrr
      rw [show applyOp units s Op.complete = stepComplete units s from rfl]
      rw [stepComplete_some units s e hinv.no_crash hro] at hic ⊢
      refine ⟨hic, ?_, ?_, ?_⟩
      · show settledIds (s.events ++ settleEvents units e) = List.range (s.completed + 1)
        rw [settledIds_append, settledIds_settleEvents, hsr, he, List.range_succ]
      · show (none : Option Nat).toList = List.range' (s.completed + 1) (s.fired - (s.completed + 1))
        rw [show s.fired - (s.completed + 1) = 0 from by omega]
        simp [Option.toList]
      · exact hpr

theorem tinv_runOps (units : Nat → Outcome) (ops : List Op) :
    ∀ s : QState, (∀ op ∈ ops, op ≠ Op.unshift) → TInv units s →
      TInv units (runOps units ops s) := by
  induction ops with
  | nil => intro s _ h; exact h
  | cons op t ih =>
      intro s hops h
      exact ih (applyOp units s op) (fun o ho => hops o (List.mem_cons_of_mem op ho))
        (tinv_applyOp units s op (hops op (List.mem_cons_self op t)) h)

theorem tinv_invoked {units : Nat → Outcome} {s : QState} (h : TInv units s) :
    invokedIds s.events = List.range s.fired := by
  rw [invoked_eq_of_inv h.inv, h.settled_range, h.running_range, List.range_eq_range',
      List.range_eq_range']
  have hcf : s.completed ≤ s.fired := by
    have := h.inv.fired_eq
    omega
  rw [show List.range' s.completed (s.fired - s.completed) =
      List.range' (0 + s.completed) (s.fired - s.completed) by rw [Nat.zero_add],
      List.range'_append_1, show s.fired - s.completed + s.completed = s.fired by omega]

theorem range_split_two (n k : Nat) (h : k + 1 < n) :
    List.range n = List.range (k + 1) ++ ((k + 1) :: List.range' (k + 2) (n - (k + 2))) := by
  have h2 : List.range' (k + 1) (n - (k + 1)) =
      (k + 1) :: List.range' (k + 2) (n - (k + 2)) := by
    rw [show n - (k + 1) = (n - (k + 2)) + 1 by omega, List.range'_succ]
  have h3 := List.range'_append_1 0 (k + 1) (n - (k + 1))
  rw [Nat.zero_add] at h3
  rw [List.range_eq_range', List.range_eq_range', ← h2, h3,
      show n - (k + 1) + (k + 1) = n by omega]

/-- C1: starting from a queue with one not-yet-completed unit at the head (the
blocker), submitting tail A (`push`), head B (`unshift`), tail C (`push`),
head D (`unshift`) in that order before any of them has run, makes the units
execute in the order D, B, A, C (the blocker runs in between B and A); this
holds whatever outcomes the units report. -/
theorem claim1_mixed_submission_order (units : Nat → Outcome) :
    invokedIds (runOps units mixedOps initState).events =
      [idD, idB, blockerId, idA, idC] ∧
    (invokedIds (runOps units mixedOps initState).events).erase blockerId =
      [idD, idB, idA, idC] := by
  have hm := mask_runOps units (fun _ => Outcome.succeed 0) mixedOps initState initState rfl
  have hiv := congrArg Mask.invoked hm
  simp only [mask] at hiv
  rw [hiv]
  exact ⟨by decide, by decide⟩

/-- C4: a unit that invokes its failure handle rejects only its own
caller-facing future — every `settleLocal` event a handle emits names the
unit's own entry and carries the unit's own reported outcome — while the
driver-advance signal `globalResolve` is emitted whether the unit succeeded or
failed; consequently the whole scheduling behaviour (pending sequence, chain
progression and execution order) is identical under any assignment of
outcomes, in particular it is exactly what it would have been had a failing
unit succeeded. -/
theorem claim4_failure_local_driver_advances :
    (∀ (units : Nat → Outcome) (e : Nat), Event.globalResolve ∈ settleEvents units e) ∧
    (∀ (units : Nat → Outcome) (e e' : Nat) (o : Outcome),
      Event.settleLocal e' o ∈ settleEvents units e → e' = e ∧ o = units e) ∧
    (∀ (u1 u2 : Nat → Outcome) (ops : List Op),
      mask (runOps u1 ops initState) = mask (runOps u2 ops initState)) := by
  refine ⟨?_, ?_, ?_⟩
  · intro units e
    rw [settleEvents_eq]
    simp
  · intro units e e' o hmem
    rw [settleEvents_eq] at hmem
    simp at hmem
    exact ⟨hmem.1, hmem.2⟩
  · intro u1 u2 ops
    exact mask_runOps u1 u2 ops initState initState rfl

/-- C4 witness: at an all-failing assignment, the failure handle still emits
the driver-advance signal, the settle event carries the unit's own reported
failure, and the scheduling of the mixed scenario is identical to the
all-succeeding assignment. -/
theorem claim4_witness :
    Event.globalResolve ∈ settleEvents (fun _ => Outcome.fail 7) 3 ∧
    ((3 : Nat) = 3 ∧ Outcome.fail 7 = (fun _ => Outcome.fail 7) 3) ∧
    mask (runOps (fun _ => Outcome.fail 7) mixedOps initState) =
      mask (runOps (fun _ => Outcome.succeed 0) mixedOps initState) :=
  ⟨claim4_failure_local_driver_advances.1 (fun _ => Outcome.fail 7) 3,
   claim4_failure_local_driver_advances.2.1 (fun _ => Outcome.fail 7) 3 3
     (Outcome.fail 7) (by decide),
   claim4_failure_local_driver_advances.2.2 (fun _ => Outcome.fail 7)
     (fun _ => Outcome.succeed 0) mixedOps⟩

/-- C6 counterexample: with no implementation ever configured and no native
Promise in the host (`LocalPromise` is `undefined`), the failure does NOT wait
for the first `push`/`unshift`: already `new Pique()` throws a TypeError at
`LocalPromise.resolve(true)`, i.e. before any submission operation. -/
theorem claim6_counterexample_constructor_fails :
    PiqueNew none = Except.error JsError.typeError := rfl

/-- C6 (amended): with no implementation configured and none native,
`push`/`unshift` do raise the configuration error at the point of use (the
guard in `_changeQueue`), and a constructed queue works under any available
implementation — but the failure can also occur before the first submission,
because the constructor itself already throws a TypeError when the
implementation is missing. -/
theorem claim6_config_error_at_point_of_use :
    (∀ (s : QState) (f : Nat → List Nat → List Nat),
      _changeQueue none s f = Except.error JsError.configError) ∧
    (∀ (s : QState), push none s = Except.error JsError.configError ∧
      unshift none s = Except.error JsError.configError) ∧
    (∀ c : Nat, PiqueNew (some c) = Except.ok initState) ∧
    PiqueNew none = Except.error JsError.typeError :=
  ⟨fun _ _ => rfl, fun _ => ⟨rfl, rfl⟩, fun _ => rfl, rfl⟩

/-- C7: `configure(ctor)` mutates the single module-level variable
`LocalPromise`, overwriting whatever it held; afterwards every submission on
every instance — whatever the instance's state, in particular instances
constructed before the call — builds its returned future with the newly
configured implementation, and the result does not depend on any per-instance
data beyond the fresh entry id. -/
theorem claim7_configure_is_process_wide :
    (∀ (c : Nat) (lp : LocalPromiseVar), configure c lp = some c) ∧
    (∀ (c : Nat) (lp : LocalPromiseVar) (s : QState) (f : Nat → List Nat → List Nat),
      _changeQueue (configure c lp) s f =
        Except.ok (submitState s f, { impl := c, entryId := s.nextId })) ∧
    (∀ (c : Nat) (lp : LocalPromiseVar) (s : QState),
      push (configure c lp) s =
        Except.ok (pushQ s, { impl := c, entryId := s.nextId }) ∧
      unshift (configure c lp) s =
        Except.ok (unshiftQ s, { impl := c, entryId := s.nextId })) :=
  ⟨fun _ _ => rfl, fun _ _ _ _ => rfl, fun _ _ _ => ⟨rfl, rfl⟩⟩

/-- C10: the webpack-bundled `_changeQueue` and the unbundled module's
`_changeQueue` are behaviourally equivalent: for every configuration state,
queue state and insertion function they fail in exactly the same situations
(namely when no promise implementation is available) and, whenever they
succeed, they return the same future and perform the same mutation of the
pending sequence and driver chain. -/
theorem claim10_bundled_equiv_unbundled :
    ∀ (lp : LocalPromiseVar) (s : QState) (f : Nat → List Nat → List Nat),
      ((∃ err, changeQueueBundled lp s f = Except.error err) ↔
        (∃ err, _changeQueue lp s f = Except.error err)) ∧
      (∀ r, changeQueueBundled lp s f = Except.ok r ↔
        _changeQueue lp s f = Except.ok r) := by
  intro lp s f
  cases lp
  · refine ⟨⟨fun _ => ⟨JsError.configError, rfl⟩, fun _ => ⟨JsError.typeError, rfl⟩⟩, ?_⟩
    intro r
    constructor
    · intro hr
      simp [changeQueueBundled] at hr
    · intro hr
      simp [_changeQueue] at hr
  · refine ⟨?_, ?_⟩
    · constructor
      · intro ⟨err, herr⟩
        simp [changeQueueBundled] at herr
      · intro ⟨err, herr⟩
        simp [_changeQueue] at herr
    · intro r
      constructor
      · intro hr
        simpa [changeQueueBundled, _changeQueue] using hr
      · intro hr
        simpa [changeQueueBundled, _changeQueue] using hr

/-- C10 witness: at a concrete unavailable configuration both copies fail, and
at a concrete available configuration both copies return the same result. -/
theorem claim10_witness :
    ((∃ err, changeQueueBundled none initState pushFn = Except.error err) ↔
      (∃ err, _changeQueue none initState pushFn = Except.error err)) ∧
    (changeQueueBundled (some 5) initState pushFn =
        Except.ok (pushQ initState, { impl := 5, entryId := 0 }) ↔
      _changeQueue (some 5) initState pushFn =
        Except.ok (pushQ initState, { impl := 5, entryId := 0 })) :=
  ⟨(claim10_bundled_equiv_unbundled none initState pushFn).1,
   (claim10_bundled_equiv_unbundled (some 5) initState pushFn).2
     (pushQ initState, { impl := 5, entryId := 0 })⟩

/-- C2: in every run whose submissions are all tail submissions (`push`), the
units are executed in exactly submission order and their outcomes are observed
in exactly submission order (FIFO) — entry ids being assigned in submission
order, the invocation list and the settlement list are initial ranges — and no
unit's function is invoked before the previously executed unit has invoked one
of its two outcome handles: the previous unit's settle events occur in the
trace before the next unit's invocation. -/
theorem claim2_tail_only_fifo (units : Nat → Outcome) (ops : List Op)
    (hops : ∀ op ∈ ops, op ≠ Op.unshift) :
    invokedIds (runOps units ops initState).events =
      List.range (runOps units ops initState).fired ∧
    settledIds (runOps units ops initState).events =
      List.range (runOps units ops initState).completed ∧
    (∀ k, k + 1 < (runOps units ops initState).fired →
      List.Sublist (settleEvents units k ++ [Event.invoke (k + 1)])
        (runOps units ops initState).events) := by
  have ht := tinv_runOps units ops initState hops (tinv_initState units)
  refine ⟨tinv_invoked ht, ht.settled_range, ?_⟩
  intro k hk
  have hsplit := range_split_two (runOps units ops initState).fired k hk
  apply settle_before_invoke ht.inv (List.mem_range.mpr (by omega : k < k + 1))
  rw [tinv_invoked ht]
  exact hsplit

/-- C2 witness: the concrete tail-only run with failing units executes and
settles in submission order, and the first unit's settle events precede the
second unit's invocation. -/
theorem claim2_witness :
    (∀ op ∈ tailOnlyOps, op ≠ Op.unshift) ∧
    invokedIds (runOps failUnits tailOnlyOps initState).events =
      List.range (runOps failUnits tailOnlyOps initState).fired ∧
    settledIds (runOps failUnits tailOnlyOps initState).events =
      List.range (runOps failUnits tailOnlyOps initState).completed ∧
    List.Sublist (settleEvents failUnits 0 ++ [Event.invoke 1])
      (runOps failUnits tailOnlyOps initState).events :=
  ⟨by decide,
   (claim2_tail_only_fifo failUnits tailOnlyOps (by decide)).1,
   (claim2_tail_only_fifo failUnits tailOnlyOps (by decide)).2.1,
   (claim2_tail_only_fifo failUnits tailOnlyOps (by decide)).2.2 0 (by decide)⟩

/-- C3: from any reachable state, a sequence of head submissions (`unshift`)
made while no driver step fires in between (the earlier-submitted unit at the
head is still pending) places the new entries in reverse submission order at
the head of the pending sequence, and when the driver then runs to completion,
the head-submitted units execute in reverse submission order: each later
head-submitted unit runs before every earlier head-submitted one. -/
theorem claim3_head_only_lifo (units : Nat → Outcome) (s0 : QState) (n : Nat)
    (h : Reachable units s0) :
    (unshiftQ^[n] s0).pending = (List.range' s0.nextId n).reverse ++ s0.pending ∧
    (invokedIds (drain units (unshiftQ^[n] s0)).events).filter
        (fun i => decide (s0.nextId ≤ i)) = (List.range' s0.nextId n).reverse := by
  have hinv := inv_of_reachable h
  obtain ⟨hp, hnx, hev, hr⟩ := unshiftQ_iter n s0
  have hinv2 := inv_unshiftQ_iter units n s0 hinv
  obtain ⟨hdinv, hdp, hdr, hdnx, hdsb, hdiv, hdsd⟩ :=
    drain_spec units (unshiftQ^[n] s0) hinv2
  refine ⟨hp, ?_⟩
  rw [hdiv, hev, hp, List.filter_append, List.filter_append]
  have hf1 : (invokedIds s0.events).filter (fun i => decide (s0.nextId ≤ i)) = [] := by
    rw [List.filter_eq_nil_iff]
    intro i hi
    rw [invoked_eq_of_inv hinv] at hi
    have := hinv.ids_lt i (List.mem_append_left _ hi)
    simp only [decide_eq_true_eq]
    omega
  have hf2 : ((List.range' s0.nextId n).reverse).filter
      (fun i => decide (s0.nextId ≤ i)) = (List.range' s0.nextId n).reverse := by
    rw [List.filter_eq_self]
    intro i hi
    rw [List.mem_reverse] at hi
    have := (List.mem_range'_1.mp hi).1
    simpa using this
  have hf3 : s0.pending.filter (fun i => decide (s0.nextId ≤ i)) = [] := by
    rw [List.filter_eq_nil_iff]
    intro i hi
    have := hinv.ids_lt i (List.mem_append_right _ hi)
    simp only [decide_eq_true_eq]
    omega
  rw [hf1, hf2, hf3, List.nil_append, List.append_nil]

/-- C3 witness: from the concrete base state with one pending entry, two head
submissions end up at the head in reverse order and execute in reverse
submission order after the drain. -/
theorem claim3_witness :
    Reachable succUnits c3Base ∧
    ((unshiftQ^[2] c3Base).pending =
        (List.range' c3Base.nextId 2).reverse ++ c3Base.pending ∧
      (invokedIds (drain succUnits (unshiftQ^[2] c3Base)).events).filter
        (fun i => decide (c3Base.nextId ≤ i)) = (List.range' c3Base.nextId 2).reverse) :=
  ⟨⟨[Op.push], rfl⟩, claim3_head_only_lifo succUnits c3Base 2 ⟨[Op.push], rfl⟩⟩

/-- C5: in every reachable state, every settle event of an entry's
caller-facing future carries exactly the outcome that entry's unit reported
(resolution with the value passed to the success handle, rejection with the
value passed to the failure handle), each future settles at most once, the
future returned by `push`/`unshift` is precisely the one settled by the newly
created entry, and an entry's settle events depend only on its own unit's
outcome, not on any other entry's. -/
theorem claim5_future_settles_with_unit_outcome :
    (∀ (units : Nat → Outcome) (s : QState), Reachable units s →
      (∀ e o, Event.settleLocal e o ∈ s.events → o = units e) ∧
      (settledIds s.events).Nodup) ∧
    (∀ (c : Nat) (s : QState),
      push (some c) s = Except.ok (pushQ s, { impl := c, entryId := s.nextId }) ∧
      unshift (some c) s = Except.ok (unshiftQ s, { impl := c, entryId := s.nextId })) ∧
    (∀ (u1 u2 : Nat → Outcome) (e : Nat), u1 e = u2 e →
      settleEvents u1 e = settleEvents u2 e) := by
  refine ⟨?_, fun _ _ => ⟨rfl, rfl⟩, ?_⟩
  · intro units s hreach
    have hinv := inv_of_reachable hreach
    constructor
    · intro e o hmem
      rw [hinv.trace_eq] at hmem
      unfold canonicalTrace at hmem
      rcases List.mem_append.mp hmem with h1 | h2
      · obtain ⟨x, hx, hin⟩ := List.mem_flatMap.mp h1
        rcases List.mem_cons.mp hin with h3 | h4
        · simp [entryBlock] at h3
        · rw [settleEvents_eq] at h4
          rcases List.mem_cons.mp h4 with h5 | h6
          · injection h5 with h5a h5b
            rw [h5b, h5a]
          · simp at h6
      · simp at h2
    · exact (hinv.ids_nodup.of_append_left).of_append_left
  · intro u1 u2 e he
    rw [settleEvents_eq, settleEvents_eq, he]

/-- C5 witness: in the concrete tail-only run with failing units, the settle
event of entry 0 carries its own reported failure, futures settle at most
once, and `push` on a fresh queue returns the future of entry 0. -/
theorem claim5_witness :
    Reachable failUnits (runOps failUnits tailOnlyOps initState) ∧
    Outcome.fail 0 = failUnits 0 ∧
    (settledIds (runOps failUnits tailOnlyOps initState).events).Nodup ∧
    push (some 3) initState = Except.ok (pushQ initState, { impl := 3, entryId := 0 }) :=
  ⟨⟨tailOnlyOps, rfl⟩,
   (claim5_future_settles_with_unit_outcome.1 failUnits
     (runOps failUnits tailOnlyOps initState) ⟨tailOnlyOps, rfl⟩).1 0
     (Outcome.fail 0) (by decide),
   (claim5_future_settles_with_unit_outcome.1 failUnits
     (runOps failUnits tailOnlyOps initState) ⟨tailOnlyOps, rfl⟩).2,
   (claim5_future_settles_with_unit_outcome.2.1 3 initState).1⟩

/-- C8: a submission call (`push` or `unshift`) never invokes the submitted
unit's function during the call — it emits no event and leaves the execution
state (fired, running, completed) untouched, only inserting the entry into the
pending sequence and attaching one driver step — and in every reachable state
a unit's invocation occurs only after every unit the driver executed before it
has invoked one of its outcome handles: each earlier-executed entry's settle
events appear in the trace before the later entry's invocation. -/
theorem claim8_submission_never_runs_unit :
    (∀ s : QState,
      (pushQ s).events = s.events ∧ (unshiftQ s).events = s.events ∧
      (pushQ s).fired = s.fired ∧ (unshiftQ s).fired = s.fired ∧
      (pushQ s).running = s.running ∧ (unshiftQ s).running = s.running ∧
      (pushQ s).completed = s.completed ∧ (unshiftQ s).completed = s.completed ∧
      (pushQ s).pending = s.pending ++ [s.nextId] ∧
      (unshiftQ s).pending = s.nextId :: s.pending ∧
      (pushQ s).chainLen = s.chainLen + 1 ∧
      (unshiftQ s).chainLen = s.chainLen + 1) ∧
    (∀ (units : Nat → Outcome) (s : QState), Reachable units s →
      ∀ (l1 l2 : List Nat) (b : Nat), invokedIds s.events = l1 ++ b :: l2 →
        ∀ a ∈ l1, List.Sublist (settleEvents units a ++ [Event.invoke b]) s.events) := by
  refine ⟨?_, ?_⟩
  · intro s
    exact ⟨rfl, rfl, rfl, rfl, rfl, rfl, rfl, rfl, rfl, rfl, rfl, rfl⟩
  · intro units s hreach l1 l2 b hs a ha
    exact settle_before_invoke (inv_of_reachable hreach) ha hs

/-- C8 witness: in the concrete tail-only run, entry 1's invocation is
preceded by entry 0's settle events, and a `push` on a fresh queue emits no
event. -/
theorem claim8_witness :
    Reachable failUnits (runOps failUnits tailOnlyOps initState) ∧
    invokedIds (runOps failUnits tailOnlyOps initState).events = [0] ++ 1 :: [] ∧
    List.Sublist (settleEvents failUnits 0 ++ [Event.invoke 1])
      (runOps failUnits tailOnlyOps initState).events ∧
    (pushQ initState).events = initState.events :=
  ⟨⟨tailOnlyOps, rfl⟩, by decide,
   claim8_submission_never_runs_unit.2 failUnits
     (runOps failUnits tailOnlyOps initState) ⟨tailOnlyOps, rfl⟩ [0] [] 1 (by decide)
     0 (by decide),
   (claim8_submission_never_runs_unit.1 initState).1⟩

/-- C9: in every reachable state the driver chain has exactly one step per
accepted submission, no TypeError has occurred, and whenever a driver step can
fire (an unfired step exists and the previous one completed) the pending
sequence is non-empty — so the `shift` always yields an actual entry and the
empty-pop branch is unreachable; moreover no entry is invoked twice, and when
the driver runs to completion every pending entry is popped and executed: the
invocation list becomes exactly a permutation of all submitted entry ids. -/
theorem claim9_chain_matches_submissions (units : Nat → Outcome)
    (s : QState) (h : Reachable units s) :
    s.chainLen = s.submitted ∧
    s.crashed = false ∧
    (s.fired < s.chainLen → s.completed = s.fired → s.pending ≠ []) ∧
    (invokedIds s.events).Nodup ∧
    (drain units s).crashed = false ∧
    (drain units s).pending = [] ∧
    invokedIds (drain units s).events = invokedIds s.events ++ s.pending ∧
    (invokedIds (drain units s).events).Perm (List.range s.submitted) := by
  have hinv := inv_of_reachable h
  obtain ⟨hdinv, hdp, hdr, hdnx, hdsb, hdiv, hdsd⟩ := drain_spec units s hinv
  refine ⟨hinv.chain_eq, hinv.no_crash, ?_, invoked_nodup_of_inv hinv,
    hdinv.no_crash, hdp, hdiv, ?_⟩
  · intro h1 h2 hpe
    have hpc := hinv.pending_chain
    rw [hpe] at hpc
    simp at hpc
    omega
  · rw [hdiv, invoked_eq_of_inv hinv]
    exact ids_perm_range_of_inv hinv

/-- C9 witness: the invariants instantiated at a concrete reachable state with
a running unit and a pending entry. -/
theorem claim9_witness :
    Reachable failUnits c9State ∧
    (c9State.chainLen = c9State.submitted ∧
     c9State.crashed = false ∧
     (c9State.fired < c9State.chainLen → c9State.completed = c9State.fired →
       c9State.pending ≠ []) ∧
     (invokedIds c9State.events).Nodup ∧
     (drain failUnits c9State).crashed = false ∧
     (drain failUnits c9State).pending = [] ∧
     invokedIds (drain failUnits c9State).events =
       invokedIds c9State.events ++ c9State.pending ∧
     (invokedIds (drain failUnits c9State).events).Perm
       (List.range c9State.submitted)) :=
  ⟨⟨[Op.push, Op.unshift, Op.fire], rfl⟩,
   claim9_chain_matches_submissions failUnits c9State
     ⟨[Op.push, Op.unshift, Op.fire], rfl⟩⟩

end PiqueModel
